import Mathlib

/-!
Verification of the spii evaluation engine (`source/function.cpp`).

This file gives a shallow embedding of `spii::Function` and its
`Implementation`: the variable registry (`add_variable_internal`), the term
graph (`add_term`), the copy-in phase (`copy_global_to_local`), the dense and
sparse evaluation paths (`Function::Implementation::evaluate`), and the
structure-only sparsity-pattern operation (`Function::create_sparse_hessian`).

Modelling conventions:
* machine `double` becomes `Rat` (exact arithmetic; floating-point rounding is
  out of scope);
* a caller-owned parameter block (`double*`) becomes an opaque `Nat` block id;
  the C++ `std::map<double*, AddedVariable>` is modelled as an association
  list kept in insertion order.  Iteration order of the C++ map (address
  order) never influences the quantities studied here: the copy loops write
  per-variable disjoint data and the gradient accumulations are additive over
  exact rationals;
* the code is compiled without `USE_OPENMP` (the non-OpenMP branches of
  `function.cpp`, with `int t = 0` and `number_of_threads = 1`), so the term
  loops are sequential and the first thrown error aborts the loop;
* a C++ `throw` becomes an error value; an evaluation returns the final state
  of the caller-supplied output buffers next to the `Except` result, so that
  "output not mutated" is expressible;
* the opaque `Term` and `ChangeOfVariables` capabilities become records of
  total functions. The three `Term::evaluate` overloads share one value
  function, one gradient function and one Hessian-block function.
-/

/-- Error values corresponding one-to-one to the `std::runtime_error` messages
thrown in `function.cpp`. -/
inductive SpiiError where
  /-- "Function::add_variable: dimension mismatch." -/
  | dimensionMismatch
  /-- "Function::add_variable: x_dimension can not change." -/
  | xDimensionCanNotChange
  /-- "Function::add_variable: t_dimension can not change." -/
  | tDimensionCanNotChange
  /-- "Function::add_variable: dimension does not match the change of variables." -/
  | dimensionDoesNotMatchChangeOfVariables
  /-- "Function::add_term: incorrect number of arguments." -/
  | incorrectNumberOfArguments
  /-- "Function::add_term: unknown variable." -/
  | unknownVariable
  /-- "Function::add_term: variable dimension does not match term." -/
  | variableDimensionDoesNotMatchTerm
  /-- "Function::evaluate: Hessian computation is not enabled." -/
  | hessianNotEnabled
  /-- "Function::evaluate: hessian can not be null." -/
  | hessianCanNotBeNull
  /-- "Change of variables not supported for Hessians" (dense path). -/
  | changeOfVariablesNotSupportedForHessians
  /-- "Change of variables not supported for sparse Hessian" (sparse path). -/
  | changeOfVariablesNotSupportedForSparseHessian
deriving DecidableEq

/-- The `spii::ChangeOfVariables` capability: a reparameterization between the
solver (t) space and the user (x) space.  `t_to_x` receives a pointer into the
global vector at the variable's offset, modelled as the suffix of the global
vector; `update_gradient` receives the current t-space values and the
user-space gradient and returns the additive contribution to the solver-space
gradient slice. -/
structure ChangeOfVariables where
  x_dimension : Nat
  t_dimension : Nat
  t_to_x : List Rat → List Rat
  x_to_t : List Rat → List Rat
  update_gradient : List Rat → List Rat → List Rat

/-- The `spii::Term` capability.  `number_of_variables` is the arity,
`variable_dimension k` the expected user dimension of argument `k`.  `eval`
computes the value from the argument buffers; `eval_gradient` the per-argument
local gradients; `eval_hessian args var0 var1 i j` the `(i, j)` entry of the
Hessian block for the argument pair `(var0, var1)`. -/
structure Term where
  number_of_variables : Nat
  variable_dimension : Nat → Nat
  eval : List (List Rat) → Rat
  eval_gradient : List (List Rat) → List (List Rat)
  eval_hessian : List (List Rat) → Nat → Nat → Nat → Nat → Rat

/-- The `AddedVariable` record of `function.cpp` (the `temp_space` scratch
buffer is recomputed functionally by `copy_global_to_local`). -/
structure AddedVariable where
  user_dimension : Nat
  solver_dimension : Nat
  global_index : Nat
  change_of_variables : Option ChangeOfVariables

/-- The `AddedTerm` record: a term binding with its ordered argument block
ids (the C++ `user_variables` pointers alias the registry records, so the
model stores the keys and resolves them through the registry at use sites). -/
structure AddedTerm where
  term : Term
  user_variables : List Nat

/-- The state of a `spii::Function` / its `Implementation` relevant to
evaluation: the registry (insertion-ordered), the running scalar count, the
term graph, and the `hessian_is_enabled` flag. -/
structure SpiiFunction where
  /-- the `variables` member of the C++ `Implementation` (`variables` is a
  reserved word in Lean) -/
  vars : List (Nat × AddedVariable)
  number_of_scalars : Nat
  terms : List AddedTerm
  hessian_is_enabled : Bool

/-- A freshly constructed `Function` (constructor in `function.cpp`):
no variables, no terms, zero scalars, Hessian support enabled. -/
def emptyFunction : SpiiFunction :=
  { vars := [], number_of_scalars := 0, terms := [], hessian_is_enabled := true }

/-- Registry lookup, `variables.find(variable)` in the C++ code. -/
def findVariable (f : SpiiFunction) (id : Nat) : Option AddedVariable :=
  (f.vars.find? (fun p => p.1 == id)).map Prod.snd

/-- Registry lookup with a defaulted record; used where the C++ code
dereferences a stored `AddedVariable*` pointer. -/
def lookupVarD (f : SpiiFunction) (id : Nat) : AddedVariable :=
  (findVariable f id).getD ⟨0, 0, 0, none⟩

/-- Replace the record stored under key `id` (in-place mutation of the mapped
value in the C++ `std::map`). -/
def replaceVariable (vars : List (Nat × AddedVariable)) (id : Nat)
    (v : AddedVariable) : List (Nat × AddedVariable) :=
  vars.map (fun p => if p.1 = id then (p.1, v) else p)

/-- Model of `Function::Implementation::add_variable_internal`.  If the block is known,
the user dimension must agree and the change of variables is replaced (with
its dimensions checked against the recorded ones); otherwise a fresh record is
appended, assigned `global_index = number_of_scalars`, and the scalar count
grows by the solver dimension.  (On the re-registration error paths the C++
code replaces the stored transform before throwing; this model only tracks
the successful outcomes, which no claim distinguishes.) -/
def add_variable_internal (f : SpiiFunction) (id : Nat) (dimension : Nat)
    (change_of_variables : Option ChangeOfVariables) :
    Except SpiiError SpiiFunction :=
  match findVariable f id with
  | some var_info =>
    if var_info.user_dimension ≠ dimension then
      .error .dimensionMismatch
    else
      match change_of_variables with
      | some c =>
        if var_info.user_dimension ≠ c.x_dimension then
          .error .xDimensionCanNotChange
        else if var_info.solver_dimension ≠ c.t_dimension then
          .error .tDimensionCanNotChange
        else
          .ok { f with vars := replaceVariable f.vars id { var_info with change_of_variables := some c } }
      | none =>
        .ok { f with vars := replaceVariable f.vars id { var_info with change_of_variables := none } }
  | none =>
    match change_of_variables with
    | some c =>
      if dimension ≠ c.x_dimension then
        .error .dimensionDoesNotMatchChangeOfVariables
      else
        .ok { f with
          vars := f.vars ++
            [(id, ⟨c.x_dimension, c.t_dimension, f.number_of_scalars, some c⟩)],
          number_of_scalars := f.number_of_scalars + c.t_dimension }
    | none =>
      .ok { f with
        vars := f.vars ++
          [(id, ⟨dimension, dimension, f.number_of_scalars, none⟩)],
        number_of_scalars := f.number_of_scalars + dimension }

/-- The argument checks of `Function::add_term`: walk the argument blocks with
the loop index `var`, failing on the first unknown block or user-dimension
mismatch against `term.variable_dimension var`. -/
def checkTermVariables (f : SpiiFunction) (term : Term) :
    List Nat → Nat → Option SpiiError
  | [], _ => none
  | id :: rest, var =>
    match findVariable f id with
    | none => some .unknownVariable
    | some v =>
      if v.user_dimension ≠ term.variable_dimension var then
        some .variableDimensionDoesNotMatchTerm
      else
        checkTermVariables f term rest (var + 1)

/-- Model of `Function::add_term`.  All checks precede any mutation of the term graph,
so on failure the original state is returned next to the error. -/
def add_term (f : SpiiFunction) (term : Term) (arguments : List Nat) :
    SpiiFunction × Option SpiiError :=
  if term.number_of_variables ≠ arguments.length then
    (f, some .incorrectNumberOfArguments)
  else
    match checkTermVariables f term arguments 0 with
    | some e => (f, some e)
    | none => ({ f with terms := f.terms ++ [⟨term, arguments⟩] }, none)

/-- Convenience wrapper threading `add_term` through `Except`, used to build
concrete functions. -/
def add_termE (f : SpiiFunction) (term : Term) (arguments : List Nat) :
    Except SpiiError SpiiFunction :=
  match add_term f term arguments with
  | (f1, none) => .ok f1
  | (_, some e) => .error e

/-- One registration request, for reasoning about registration sequences. -/
structure Registration where
  block_id : Nat
  dimension : Nat
  change_of_variables : Option ChangeOfVariables

/-- Run a sequence of `add_variable_internal` calls; the first failure aborts
the sequence. -/
def applyRegistrations : SpiiFunction → List Registration →
    Except SpiiError SpiiFunction
  | f, [] => .ok f
  | f, r :: rest =>
    match add_variable_internal f r.block_id r.dimension r.change_of_variables with
    | .ok f1 => applyRegistrations f1 rest
    | .error e => .error e

/-- The slice of length `len` of a global vector starting at `off`. -/
def listSlice (x : List Rat) (off len : Nat) : List Rat :=
  (x.drop off).take len

/-- The per-variable body of `Function::Implementation::copy_global_to_local`:
without a change of variables the slice of `x` at the variable's offset is
copied to its scratch; otherwise `t_to_x` is applied to the pointer
`&x[global_index]` (modelled as the suffix of `x`). -/
def copy_global_to_local (v : AddedVariable) (x : List Rat) : List Rat :=
  match v.change_of_variables with
  | none => listSlice x v.global_index v.user_dimension
  | some c => c.t_to_x (x.drop v.global_index)

/-- The block id of argument number `var` of a binding (an index into the
binding's `user_variables`). -/
def bindingArg (t : AddedTerm) (var : Nat) : Nat :=
  t.user_variables.getD var 0

/-- The argument buffers (`temp_variables`) handed to a term: each argument
block's scratch after copy-in. -/
def termArguments (f : SpiiFunction) (t : AddedTerm) (x : List Rat) :
    List (List Rat) :=
  t.user_variables.map (fun id => copy_global_to_local (lookupVarD f id) x)

/-- Model of `Function::evaluate(const Eigen::VectorXd&)`: copy-in followed by
`evaluate_from_local_storage`, the sum of all term values. -/
def evaluateValue (f : SpiiFunction) (x : List Rat) : Rat :=
  f.terms.foldl (fun acc t => acc + t.term.eval (termArguments f t x)) 0

/-- Add a local contribution into a global gradient (a function `Nat → Rat`)
starting at offset `off`. -/
def addContribution (g : Nat → Rat) (off : Nat) (contrib : List Rat) :
    Nat → Rat :=
  fun k => if k < off then g k else g k + contrib.getD (k - off) 0

/-- The gradient-scatter loop body of both evaluation paths: for each argument
of a binding, either copy `user_dimension` entries of the local gradient into
the global gradient at the variable's offset, or let `update_gradient` add the
chain-rule contribution. -/
def scatterTermGradient (f : SpiiFunction) (x : List Rat) (t : AddedTerm)
    (g : Nat → Rat) : Nat → Rat :=
  let grads := t.term.eval_gradient (termArguments f t x)
  (List.range t.user_variables.length).foldl
    (fun g var =>
      let v := lookupVarD f (bindingArg t var)
      match v.change_of_variables with
      | none =>
        addContribution g v.global_index
          ((grads.getD var []).take v.user_dimension)
      | some c =>
        addContribution g v.global_index
          (c.update_gradient (x.drop v.global_index) (grads.getD var []))) g

/-- The accumulated thread gradient (single thread, zero-initialized) after
the sequential term loop. -/
def totalGradient (f : SpiiFunction) (x : List Rat) : Nat → Rat :=
  f.terms.foldl (fun g t => scatterTermGradient f x t g) (fun _ => 0)

/-- Model of `Eigen::VectorXd::resize`: the old contents need not survive; the write
that follows overwrites everything, so the model keeps a prefix and pads. -/
def resizeVec (g : List Rat) (n : Nat) : List Rat :=
  g.take n ++ List.replicate (n - g.length) 0

/-- The materialized single-thread gradient storage. -/
def threadStorageList (f : SpiiFunction) (tot : Nat → Rat) : List Rat :=
  (List.range f.number_of_scalars).map tot

/-- The gradient write-back common to both evaluation paths: resize the
caller's buffer when its size differs from `number_of_scalars`, set it to
zero, and add each thread's gradient storage (a single storage here). -/
def write_back_gradient (f : SpiiFunction) (g0 : List Rat) (tot : Nat → Rat) :
    List Rat :=
  let g1 := if g0.length ≠ f.number_of_scalars then
    resizeVec g0 f.number_of_scalars else g0
  (g1.map (fun _ => (0 : Rat))).zipWith (· + ·) (threadStorageList f tot)

/-- Add `q` at position `i` of a row (Eigen `coeffRef` increment). -/
def vecAddAt (v : List Rat) (i : Nat) (q : Rat) : List Rat :=
  v.set i (v.getD i 0 + q)

/-- Add `q` at entry `(r, c)` of a dense matrix stored as rows. -/
def matAddAt (m : List (List Rat)) (r c : Nat) (q : Rat) : List (List Rat) :=
  m.set r (vecAddAt (m.getD r []) c q)

/-- The `n × n` zero matrix (`hessian->resize(n, n); hessian->setZero()`). -/
def matZero (n : Nat) : List (List Rat) :=
  List.replicate n (List.replicate n 0)

/-- Accumulate a coordinate list into a dense matrix, entry by entry. -/
def accumTriplets (m : List (List Rat)) (l : List (Nat × Nat × Rat)) :
    List (List Rat) :=
  l.foldl (fun m p => matAddAt m p.1 p.2.1 p.2.2) m

/-- Model of `Eigen::SparseMatrix::setFromTriplets` materialized densely: duplicate
coordinates are summed into an `n × n` zero matrix. -/
def setFromTriplets (n : Nat) (l : List (Nat × Nat × Rat)) : List (List Rat) :=
  accumTriplets (matZero n) l

/-- The coordinate/value enumeration of one binding for a fixed first argument
`var0`: the loops over `var1`, `i < variable_dimension var0` and
`j < variable_dimension var1` of both Hessian assembly passes, with the value
taken from the term's Hessian block. -/
def var0Triplets (f : SpiiFunction) (x : List Rat) (t : AddedTerm)
    (var0 : Nat) : List (Nat × Nat × Rat) :=
  (List.range t.term.number_of_variables).flatMap (fun var1 =>
    (List.range (t.term.variable_dimension var0)).flatMap (fun i =>
      (List.range (t.term.variable_dimension var1)).map (fun j =>
        (i + (lookupVarD f (bindingArg t var0)).global_index,
         j + (lookupVarD f (bindingArg t var1)).global_index,
         t.term.eval_hessian (termArguments f t x) var0 var1 i j))))

/-- All Hessian coordinates and values contributed by one binding. -/
def termTriplets (f : SpiiFunction) (x : List Rat) (t : AddedTerm) :
    List (Nat × Nat × Rat) :=
  (List.range t.term.number_of_variables).flatMap (var0Triplets f x t)

/-- The full coordinate list gathered by the sparse Hessian assembly
(lines 820-845 of `function.cpp`). -/
def allTriplets (f : SpiiFunction) (x : List Rat) : List (Nat × Nat × Rat) :=
  f.terms.flatMap (termTriplets f x)

/-- The `var0` loop of the dense Hessian assembly: each first argument is
checked for a change of variables before its block row is added into the
global dense Hessian. -/
def termVar0Loop (f : SpiiFunction) (x : List Rat) (t : AddedTerm) :
    List Nat → List (List Rat) → Option SpiiError × List (List Rat)
  | [], m => (none, m)
  | var0 :: rest, m =>
    if ((lookupVarD f (bindingArg t var0)).change_of_variables).isSome then
      (some .changeOfVariablesNotSupportedForHessians, m)
    else
      termVar0Loop f x t rest (accumTriplets m (var0Triplets f x t var0))

/-- The term loop of the dense Hessian assembly (lines 674-694 of
`function.cpp`); the first error aborts, leaving the partially assembled
matrix. -/
def denseTermsLoop (f : SpiiFunction) (x : List Rat) :
    List AddedTerm → List (List Rat) → Option SpiiError × List (List Rat)
  | [], m => (none, m)
  | t :: rest, m =>
    match termVar0Loop f x t (List.range t.term.number_of_variables) m with
    | (some e, m1) => (some e, m1)
    | (none, m1) => denseTermsLoop f x rest m1

/-- The dense Hessian assembly starting from the zeroed global matrix. -/
def assembleDenseHessian (f : SpiiFunction) (x : List Rat) :
    Option SpiiError × List (List Rat) :=
  denseTermsLoop f x f.terms (matZero f.number_of_scalars)

/-- Result of a dense-target evaluation: the `Except` outcome together with
the final contents of the caller's gradient buffer and (optional) dense
Hessian buffer. -/
structure DenseEvalResult where
  result : Except SpiiError Rat
  gradient : List Rat
  hessian : Option (List (List Rat))

/-- Model of `Function::Implementation::evaluate` with a dense Hessian target
(`hessian = none` models a null `Eigen::MatrixXd*`, i.e. the gradient-taking
`evaluate(x, &gradient)`).  A requested Hessian with Hessian support disabled
fails before any output is touched; the gradient is written back before the
Hessian assembly runs, matching the code order. -/
def evaluateDense (f : SpiiFunction) (x : List Rat) (g0 : List Rat)
    (h0 : Option (List (List Rat))) : DenseEvalResult :=
  if h0.isSome && !f.hessian_is_enabled then
    ⟨.error .hessianNotEnabled, g0, h0⟩
  else
    let value := evaluateValue f x
    let grad := write_back_gradient f g0 (totalGradient f x)
    match h0 with
    | none => ⟨.ok value, grad, none⟩
    | some _ =>
      match assembleDenseHessian f x with
      | (none, m) => ⟨.ok value, grad, some m⟩
      | (some e, m) => ⟨.error e, grad, some m⟩

/-- Does some binding have an argument variable carrying a change of
variables?  This is the condition scanned by the transform checks of both
Hessian paths. -/
def hasTransformedBindingArgument (f : SpiiFunction) : Bool :=
  f.terms.any (fun t =>
    t.user_variables.any (fun id =>
      ((lookupVarD f id).change_of_variables).isSome))

/-- The error produced by the sparse evaluation's term loop: the loop walks
every binding and every argument and throws at the first argument with a
change of variables, so it fails exactly when some binding argument is
transformed. -/
def sparseTermErr (f : SpiiFunction) : Option SpiiError :=
  if hasTransformedBindingArgument f then
    some .changeOfVariablesNotSupportedForSparseHessian
  else none

/-- Result of a sparse-target evaluation; the Hessian is carried as the
coordinate list handed to `setFromTriplets`, with `none` for a null
destination pointer. -/
structure SparseEvalResult where
  result : Except SpiiError Rat
  gradient : List Rat
  hessian : Option (List (Nat × Nat × Rat))

/-- Model of `Function::Implementation::evaluate` with a sparse Hessian target: a null
destination fails first, then a disabled Hessian, then the term loop (which
aborts on the first transformed binding argument, touching no caller output);
on success the gradient is written back and the triplet list is built. -/
def evaluateSparse (f : SpiiFunction) (x : List Rat) (g0 : List Rat)
    (s0 : Option (List (Nat × Nat × Rat))) : SparseEvalResult :=
  if s0.isNone then
    ⟨.error .hessianCanNotBeNull, g0, s0⟩
  else if !f.hessian_is_enabled then
    ⟨.error .hessianNotEnabled, g0, s0⟩
  else
    match sparseTermErr f with
    | some e => ⟨.error e, g0, s0⟩
    | none =>
      ⟨.ok (evaluateValue f x),
       write_back_gradient f g0 (totalGradient f x),
       some (allTriplets f x)⟩

/-- Model of `Function::create_sparse_hessian`: the structure-only sparsity pattern.
It enumerates the same nested loops as the sparse assembly but pushes the
constant value `1.0` and never calls a term. -/
def create_sparse_hessian (f : SpiiFunction) : List (Nat × Nat × Rat) :=
  f.terms.flatMap (fun t =>
    (List.range t.term.number_of_variables).flatMap (fun var0 =>
      (List.range t.term.number_of_variables).flatMap (fun var1 =>
        (List.range (t.term.variable_dimension var0)).flatMap (fun i =>
          (List.range (t.term.variable_dimension var1)).map (fun j =>
            (i + (lookupVarD f (bindingArg t var0)).global_index,
             j + (lookupVarD f (bindingArg t var1)).global_index,
             (1 : Rat)))))))

/-- The coordinate projection of a triplet list. -/
def tripCoords (l : List (Nat × Nat × Rat)) : List (Nat × Nat) :=
  l.map (fun p => (p.1, p.2.1))

/-- Replace every term's evaluation functions, keeping arities, per-argument
dimensions and the graph structure; used to state that the sparsity pattern
evaluates no term. -/
def replaceEvalFunctions (f : SpiiFunction)
    (e : List (List Rat) → Rat)
    (ge : List (List Rat) → List (List Rat))
    (he : List (List Rat) → Nat → Nat → Nat → Nat → Rat) : SpiiFunction :=
  { f with terms := f.terms.map (fun t =>
      { t with term :=
        { t.term with eval := e, eval_gradient := ge, eval_hessian := he } }) }

/-- Every binding references exactly as many argument blocks as its term's
arity — guaranteed for graphs built through `add_term`. -/
def BindingsArityOk (f : SpiiFunction) : Prop :=
  ∀ t ∈ f.terms, t.user_variables.length = t.term.number_of_variables

/-!
Concrete scenario objects (spec §8): the two-variable term
`(a - b[0])^2 + b[1]^2`, its arity-1 restriction `a^2`, and the doubling
change of variables `t ↦ 2t`.
-/

/-- The arity-2 term computing `(a - b[0])^2 + b[1]^2` for a dimension-1
argument `a` and a dimension-2 argument `b`, with its analytic gradient and
Hessian blocks. -/
def twoVarTerm : Term where
  number_of_variables := 2
  variable_dimension := fun k => [1, 2].getD k 0
  eval := fun args =>
    let a := (args.getD 0 []).getD 0 0
    let b0 := (args.getD 1 []).getD 0 0
    let b1 := (args.getD 1 []).getD 1 0
    (a - b0) * (a - b0) + b1 * b1
  eval_gradient := fun args =>
    let a := (args.getD 0 []).getD 0 0
    let b0 := (args.getD 1 []).getD 0 0
    let b1 := (args.getD 1 []).getD 1 0
    [[2 * (a - b0)], [-(2 * (a - b0)), 2 * b1]]
  eval_hessian := fun _ var0 var1 i j =>
    if var0 = 0 then
      (if var1 = 0 then (if i = 0 ∧ j = 0 then 2 else 0)
       else if j = 0 then -2 else 0)
    else
      (if var1 = 0 then (if i = 0 then -2 else 0)
       else if i = j then 2 else 0)

/-- The arity-1 term computing `a^2` for a dimension-1 argument. -/
def squareTerm : Term where
  number_of_variables := 1
  variable_dimension := fun _ => 1
  eval := fun args =>
    let a := (args.getD 0 []).getD 0 0
    a * a
  eval_gradient := fun args =>
    let a := (args.getD 0 []).getD 0 0
    [[2 * a]]
  eval_hessian := fun _ _ _ _ _ => 2

/-- The change of variables mapping the optimization value `t` to the user
value `2t` (dimension 1 in both spaces). -/
def doublingChange : ChangeOfVariables where
  x_dimension := 1
  t_dimension := 1
  t_to_x := fun l => [2 * l.getD 0 0]
  x_to_t := fun l => [l.getD 0 0 / 2]
  update_gradient := fun _ ug => [2 * ug.getD 0 0]

/-- The registry state after registering block 0 with dimension 1 and block 1
with dimension 2 (offsets 0 and 1, three scalars). -/
def c1TwoVars : SpiiFunction :=
  { vars := [(0, ⟨1, 1, 0, none⟩), (1, ⟨2, 2, 1, none⟩)],
    number_of_scalars := 3, terms := [], hessian_is_enabled := true }

/-- The state `c1TwoVars` is reachable through the public registration API. -/
theorem c1TwoVars_reachable :
    applyRegistrations emptyFunction
      [⟨0, 1, none⟩, ⟨1, 2, none⟩] = .ok c1TwoVars := rfl

/-- The Function of the first concrete scenario: both variables plus the
single binding of `twoVarTerm` to blocks 0 and 1. -/
def c1Function : SpiiFunction :=
  { c1TwoVars with terms := [⟨twoVarTerm, [0, 1]⟩] }

/-- The state `c1Function` is reachable by `add_term` from `c1TwoVars`. -/
theorem c1Function_reachable :
    add_term c1TwoVars twoVarTerm [0, 1] = (c1Function, none) := rfl

/-- The Function of the second concrete scenario: block 0 of dimension 1 with
the doubling change of variables, bound by `squareTerm`. -/
def c8Function : SpiiFunction :=
  { vars := [(0, ⟨1, 1, 0, some doublingChange⟩)],
    number_of_scalars := 1,
    terms := [⟨squareTerm, [0]⟩], hessian_is_enabled := true }

/-- The state `c8Function` is reachable through the API. -/
theorem c8Function_reachable :
    (applyRegistrations emptyFunction [⟨0, 1, some doublingChange⟩]).map
        (fun f1 => add_term f1 squareTerm [0]) = .ok (c8Function, none) := rfl

/-- C1: for the Function with a dimension-1 variable (offset 0) and a
dimension-2 variable (offset 1) bound by the single arity-2 term
`(a - b[0])^2 + b[1]^2`, `evaluate([3, 1, 2])` returns `8` — both through the
value-only overload and through the gradient-taking overload — and the
gradient written back is `[4, -4, 4]`. -/
theorem c1_concrete_evaluate_and_gradient :
    (lookupVarD c1Function 0).global_index = 0 ∧
    (lookupVarD c1Function 1).global_index = 1 ∧
    evaluateValue c1Function [3, 1, 2] = 8 ∧
    (evaluateDense c1Function [3, 1, 2] [] none).result = .ok 8 ∧
    (evaluateDense c1Function [3, 1, 2] [] none).gradient = [4, -4, 4] := by
  refine ⟨rfl, rfl, ?_, ?_, ?_⟩
  · norm_num [evaluateValue, c1Function, c1TwoVars, termArguments, copy_global_to_local,
      lookupVarD, findVariable, listSlice, twoVarTerm]
  · norm_num [evaluateDense, evaluateValue, c1Function, c1TwoVars, termArguments,
      copy_global_to_local, lookupVarD, findVariable, listSlice, twoVarTerm]
  · norm_num [evaluateDense, c1Function, c1TwoVars, write_back_gradient, threadStorageList,
      totalGradient, scatterTermGradient, addContribution, termArguments, copy_global_to_local,
      lookupVarD, findVariable, listSlice, twoVarTerm, bindingArg, resizeVec, List.range_succ,
      List.replicate_succ, List.zipWith_cons_cons]

/-- C8: for the Function with one dimension-1 variable carrying the doubling
change of variables `t ↦ 2t` and the single arity-1 term `a^2`,
`evaluate([3])` returns `(2·3)^2 = 36`: the copy-in phase applies `t_to_x`
before the term is evaluated. -/
theorem c8_transform_copy_in_evaluate :
    evaluateValue c8Function [3] = 36 := by
  norm_num [evaluateValue, c8Function, termArguments, copy_global_to_local,
    lookupVarD, findVariable, listSlice, squareTerm, doublingChange]

/-- C3: with Hessian support disabled, a dense-target evaluation with a
non-null Hessian destination and a sparse-target evaluation with a non-null
destination both fail with the Hessian-disabled error and leave the caller's
gradient buffer and Hessian destination exactly as they were. -/
theorem c3_hessian_disabled_no_mutation (f : SpiiFunction) (x g0 : List Rat)
    (h0 : List (List Rat)) (s0 : List (Nat × Nat × Rat))
    (hdis : f.hessian_is_enabled = false) :
    (evaluateDense f x g0 (some h0)).result = .error .hessianNotEnabled ∧
    (evaluateDense f x g0 (some h0)).gradient = g0 ∧
    (evaluateDense f x g0 (some h0)).hessian = some h0 ∧
    (evaluateSparse f x g0 (some s0)).result = .error .hessianNotEnabled ∧
    (evaluateSparse f x g0 (some s0)).gradient = g0 ∧
    (evaluateSparse f x g0 (some s0)).hessian = some s0 := by
  simp [evaluateDense, evaluateSparse, hdis]

/-- Witness for C3 at a concrete disabled Function. -/
theorem c3_hessian_disabled_no_mutation_witness :
    ({ c1Function with hessian_is_enabled := false } : SpiiFunction).hessian_is_enabled = false ∧
    ((evaluateDense { c1Function with hessian_is_enabled := false } [3, 1, 2] [7] (some [])).result
        = .error .hessianNotEnabled ∧
      (evaluateDense { c1Function with hessian_is_enabled := false } [3, 1, 2] [7] (some [])).gradient = [7] ∧
      (evaluateDense { c1Function with hessian_is_enabled := false } [3, 1, 2] [7] (some [])).hessian = some [] ∧
      (evaluateSparse { c1Function with hessian_is_enabled := false } [3, 1, 2] [7] (some [])).result
        = .error .hessianNotEnabled ∧
      (evaluateSparse { c1Function with hessian_is_enabled := false } [3, 1, 2] [7] (some [])).gradient = [7] ∧
      (evaluateSparse { c1Function with hessian_is_enabled := false } [3, 1, 2] [7] (some [])).hessian = some []) :=
  ⟨rfl, c3_hessian_disabled_no_mutation _ [3, 1, 2] [7] [] [] rfl⟩

/-- Pointwise addition of a zero vector is the identity (the `setZero` /
accumulate pair of the write-back). -/
theorem zipWith_zero_add (a b : List Rat) (h : a.length = b.length) :
    (a.map (fun _ => (0 : Rat))).zipWith (· + ·) b = b := by
  induction a generalizing b with
  | nil => cases b <;> simp_all
  | cons x xs ih =>
    cases b with
    | nil => simp_all
    | cons y ys => simp_all

/-- The function `resizeVec` really produces a vector of the requested size. -/
theorem resizeVec_length (g : List Rat) (n : Nat) : (resizeVec g n).length = n := by
  simp [resizeVec]; omega

/-- The written-back gradient is exactly the materialized thread storage,
independent of the prior buffer: the buffer is resized to
`number_of_scalars`, zeroed, and then every entry is rewritten. -/
theorem write_back_gradient_eq (f : SpiiFunction) (g0 : List Rat)
    (tot : Nat → Rat) :
    write_back_gradient f g0 tot = threadStorageList f tot := by
  unfold write_back_gradient
  apply zipWith_zero_add
  have hs : (threadStorageList f tot).length = f.number_of_scalars := by
    simp [threadStorageList]
  by_cases hlen : g0.length = f.number_of_scalars
  · rw [if_neg (by simp [hlen]), hs, hlen]
  · rw [if_pos hlen, resizeVec_length, hs]

/-- C10: the gradient written by the gradient-taking evaluate does not depend
on the prior size or contents of the caller's gradient buffer — for the dense
path (null Hessian target) unconditionally, and for the sparse path whenever
the evaluation succeeds. -/
theorem c10_gradient_independent_of_buffer (f : SpiiFunction) (x : List Rat)
    (g0 g1 : List Rat) (s0 : Option (List (Nat × Nat × Rat))) :
    (evaluateDense f x g0 none).gradient = (evaluateDense f x g1 none).gradient ∧
    ((∃ v, (evaluateSparse f x g0 s0).result = Except.ok v) →
      (evaluateSparse f x g0 s0).gradient = (evaluateSparse f x g1 s0).gradient) := by
  constructor
  · simp [evaluateDense, write_back_gradient_eq]
  · intro hok
    obtain ⟨v, hv⟩ := hok
    cases s0 with
    | none => simp [evaluateSparse] at hv
    | some s =>
      by_cases hen : f.hessian_is_enabled
      · cases herr : sparseTermErr f with
        | none => simp [evaluateSparse, hen, herr, write_back_gradient_eq]
        | some e => simp [evaluateSparse, hen, herr] at hv
      · simp [evaluateSparse, hen] at hv

/-- Witness for C10 at the concrete scenario Function: the sparse evaluation
succeeds and the gradients written into the buffers `[7]` and `[]` agree. -/
theorem c10_gradient_independent_of_buffer_witness :
    (∃ v, (evaluateSparse c1Function [3, 1, 2] [7] (some [])).result = Except.ok v) ∧
    (evaluateSparse c1Function [3, 1, 2] [7] (some [])).gradient
      = (evaluateSparse c1Function [3, 1, 2] [] (some [])).gradient := by
  have hex : ∃ v, (evaluateSparse c1Function [3, 1, 2] [7] (some [])).result = Except.ok v := by
    refine ⟨8, ?_⟩
    norm_num [evaluateSparse, sparseTermErr, hasTransformedBindingArgument, c1Function,
      c1TwoVars, lookupVarD, findVariable, evaluateValue, termArguments,
      copy_global_to_local, listSlice, twoVarTerm]
  exact ⟨hex, (c10_gradient_independent_of_buffer c1Function [3, 1, 2] [7] [] (some [])).2 hex⟩

/-- Accumulating a concatenated coordinate list accumulates both halves in
order. -/
theorem accumTriplets_append (m : List (List Rat)) (a b : List (Nat × Nat × Rat)) :
    accumTriplets m (a ++ b) = accumTriplets (accumTriplets m a) b :=
  List.foldl_append ..

/-- When no first argument in `vlist` carries a change of variables, the
`var0` loop of the dense assembly succeeds and adds exactly the corresponding
triplets. -/
theorem termVar0Loop_no_transform (f : SpiiFunction) (x : List Rat)
    (t : AddedTerm) (vlist : List Nat)
    (hv : ∀ v0 ∈ vlist,
      ((lookupVarD f (bindingArg t v0)).change_of_variables).isSome = false) :
    ∀ m, termVar0Loop f x t vlist m =
      (none, accumTriplets m (vlist.flatMap (var0Triplets f x t))) := by
  induction vlist with
  | nil => intro m; simp [termVar0Loop, accumTriplets]
  | cons v0 rest ih =>
    intro m
    have h0 := hv v0 (by simp)
    simp only [termVar0Loop, h0, Bool.false_eq_true, if_false]
    rw [ih (fun v hv1 => hv v (by simp [hv1]))]
    simp [accumTriplets_append]

/-- When no binding argument (within each term's arity range) carries a change
of variables, the dense assembly term loop succeeds and accumulates the full
triplet enumeration. -/
theorem denseTermsLoop_no_transform (f : SpiiFunction) (x : List Rat)
    (ts : List AddedTerm)
    (h : ∀ t ∈ ts, ∀ v0 ∈ List.range t.term.number_of_variables,
      ((lookupVarD f (bindingArg t v0)).change_of_variables).isSome = false) :
    ∀ m, denseTermsLoop f x ts m =
      (none, accumTriplets m (ts.flatMap (termTriplets f x))) := by
  induction ts with
  | nil => intro m; simp [denseTermsLoop, accumTriplets]
  | cons t rest ih =>
    intro m
    have h1 := termVar0Loop_no_transform f x t
      (List.range t.term.number_of_variables) (h t (by simp)) m
    simp only [denseTermsLoop, h1]
    rw [ih (fun t1 ht1 => h t1 (by simp [ht1]))]
    simp [termTriplets, accumTriplets_append]

/-- The outcome of the `var0` loop is an error exactly when some first
argument in `vlist` carries a change of variables, and that error is always
the dense transform error. -/
theorem termVar0Loop_fst (f : SpiiFunction) (x : List Rat) (t : AddedTerm)
    (vlist : List Nat) :
    ∀ m, (termVar0Loop f x t vlist m).1 =
      if vlist.any (fun v0 =>
          ((lookupVarD f (bindingArg t v0)).change_of_variables).isSome)
      then some .changeOfVariablesNotSupportedForHessians else none := by
  induction vlist with
  | nil => intro m; simp [termVar0Loop]
  | cons v0 rest ih =>
    intro m
    simp only [termVar0Loop]
    cases h0 : ((lookupVarD f (bindingArg t v0)).change_of_variables).isSome with
    | false =>
      simp only [h0, Bool.false_eq_true, if_false]
      rw [ih]
      simp [h0]
    | true => simp [h0]

/-- The outcome of the dense assembly term loop is an error exactly when some
binding has a transformed argument within its arity range. -/
theorem denseTermsLoop_fst (f : SpiiFunction) (x : List Rat)
    (ts : List AddedTerm) :
    ∀ m, (denseTermsLoop f x ts m).1 =
      if ts.any (fun t => (List.range t.term.number_of_variables).any (fun v0 =>
          ((lookupVarD f (bindingArg t v0)).change_of_variables).isSome))
      then some .changeOfVariablesNotSupportedForHessians else none := by
  induction ts with
  | nil => intro m; simp [denseTermsLoop]
  | cons t rest ih =>
    intro m
    rcases hloop : termVar0Loop f x t (List.range t.term.number_of_variables) m
      with ⟨e1, m1⟩
    have hfst := termVar0Loop_fst f x t (List.range t.term.number_of_variables) m
    rw [hloop] at hfst
    simp only at hfst
    cases hc : (List.range t.term.number_of_variables).any (fun v0 =>
        ((lookupVarD f (bindingArg t v0)).change_of_variables).isSome) with
    | true =>
      rw [hc] at hfst
      simp at hfst
      subst hfst
      simp only [denseTermsLoop, hloop]
      simp [hc]
    | false =>
      rw [hc] at hfst
      simp at hfst
      subst hfst
      simp only [denseTermsLoop, hloop]
      rw [ih m1]
      simp [hc]

/-- If no binding argument carries a change of variables, then in particular
no argument slot within each term's arity range resolves to a transformed
variable. -/
theorem no_transform_within_range (f : SpiiFunction)
    (har : BindingsArityOk f)
    (hnt : hasTransformedBindingArgument f = false) :
    ∀ t ∈ f.terms, ∀ v0 ∈ List.range t.term.number_of_variables,
      ((lookupVarD f (bindingArg t v0)).change_of_variables).isSome = false := by
  intro t ht v0 hv0
  have hlen : v0 < t.user_variables.length := by
    rw [har t ht]; simpa using hv0
  have hmem : bindingArg t v0 ∈ t.user_variables := by
    rw [bindingArg, List.getD_eq_getElem _ _ hlen]
    exact List.getElem_mem hlen
  simp only [hasTransformedBindingArgument, List.any_eq_false,
    Bool.not_eq_true] at hnt
  exact hnt t ht _ hmem

/-- C2: on a Function with Hessian support enabled whose bindings carry no
change of variables, dense-target and sparse-target evaluation at the same
`x` both succeed with the same value, write the same gradient, and the dense
Hessian equals the densified (`setFromTriplets`) sparse coordinate list. -/
theorem c2_dense_sparse_hessian_agree (f : SpiiFunction) (x g0 : List Rat)
    (h0 : List (List Rat)) (s0 : List (Nat × Nat × Rat))
    (hen : f.hessian_is_enabled = true)
    (har : BindingsArityOk f)
    (hnt : hasTransformedBindingArgument f = false) :
    (evaluateDense f x g0 (some h0)).result = Except.ok (evaluateValue f x) ∧
    (evaluateSparse f x g0 (some s0)).result = Except.ok (evaluateValue f x) ∧
    (evaluateDense f x g0 (some h0)).gradient
      = (evaluateSparse f x g0 (some s0)).gradient ∧
    (evaluateSparse f x g0 (some s0)).hessian = some (allTriplets f x) ∧
    (evaluateDense f x g0 (some h0)).hessian
      = some (setFromTriplets f.number_of_scalars (allTriplets f x)) := by
  have hassem : assembleDenseHessian f x =
      (none, setFromTriplets f.number_of_scalars (allTriplets f x)) := by
    unfold assembleDenseHessian setFromTriplets allTriplets
    exact denseTermsLoop_no_transform f x f.terms
      (no_transform_within_range f har hnt) _
  have hserr : sparseTermErr f = none := by simp [sparseTermErr, hnt]
  refine ⟨?_, ?_, ?_, ?_, ?_⟩ <;>
    simp [evaluateDense, evaluateSparse, hen, hserr, hassem]

/-- Witness for C2 at the concrete two-variable scenario. -/
theorem c2_dense_sparse_hessian_agree_witness :
    c1Function.hessian_is_enabled = true ∧
    BindingsArityOk c1Function ∧
    hasTransformedBindingArgument c1Function = false ∧
    ((evaluateDense c1Function [3, 1, 2] [] (some [])).result
        = Except.ok (evaluateValue c1Function [3, 1, 2]) ∧
      (evaluateSparse c1Function [3, 1, 2] [] (some [])).result
        = Except.ok (evaluateValue c1Function [3, 1, 2]) ∧
      (evaluateDense c1Function [3, 1, 2] [] (some [])).gradient
        = (evaluateSparse c1Function [3, 1, 2] [] (some [])).gradient ∧
      (evaluateSparse c1Function [3, 1, 2] [] (some [])).hessian
        = some (allTriplets c1Function [3, 1, 2]) ∧
      (evaluateDense c1Function [3, 1, 2] [] (some [])).hessian
        = some (setFromTriplets c1Function.number_of_scalars
            (allTriplets c1Function [3, 1, 2]))) := by
  have har : BindingsArityOk c1Function := by
    intro t ht
    simp [c1Function, c1TwoVars] at ht
    simp [ht, twoVarTerm]
  exact ⟨rfl, har, rfl,
    c2_dense_sparse_hessian_agree c1Function [3, 1, 2] [] [] [] rfl har rfl⟩

/-- C4: on a Function with Hessian support enabled in which some binding
argument carries a change of variables, a dense Hessian request fails with the
dense transform error and a sparse Hessian request fails with the sparse
transform error. -/
theorem c4_transform_hessian_request_fails (f : SpiiFunction) (x g0 : List Rat)
    (h0 : List (List Rat)) (s0 : List (Nat × Nat × Rat))
    (hen : f.hessian_is_enabled = true)
    (har : BindingsArityOk f)
    (ht : hasTransformedBindingArgument f = true) :
    (evaluateDense f x g0 (some h0)).result
      = .error .changeOfVariablesNotSupportedForHessians ∧
    (evaluateSparse f x g0 (some s0)).result
      = .error .changeOfVariablesNotSupportedForSparseHessian := by
  constructor
  · have hany : (f.terms.any (fun t =>
        (List.range t.term.number_of_variables).any (fun v0 =>
          ((lookupVarD f (bindingArg t v0)).change_of_variables).isSome))) = true := by
      simp only [hasTransformedBindingArgument, List.any_eq_true] at ht
      obtain ⟨t, ht1, id, hid, hcov⟩ := ht
      obtain ⟨⟨k, hk⟩, hget⟩ := List.mem_iff_get.mp hid
      simp only [List.any_eq_true]
      refine ⟨t, ht1, k, ?_, ?_⟩
      · simp only [List.mem_range]
        rw [← har t ht1]
        exact hk
      · have hbk : bindingArg t k = id := by
          rw [bindingArg, List.getD_eq_getElem _ _ hk]
          simpa using hget
        rw [hbk]
        exact hcov
    have hfst := denseTermsLoop_fst f x f.terms (matZero f.number_of_scalars)
    rw [hany] at hfst
    simp only [if_true] at hfst
    rcases hA : denseTermsLoop f x f.terms (matZero f.number_of_scalars) with ⟨e1, m1⟩
    rw [hA] at hfst
    simp only at hfst
    subst hfst
    have hAD : assembleDenseHessian f x =
        (some .changeOfVariablesNotSupportedForHessians, m1) := by
      rw [assembleDenseHessian, hA]
    simp [evaluateDense, hen, hAD]
  · simp [evaluateSparse, hen, sparseTermErr, ht]

/-- Witness for C4 at the concrete transformed scenario. -/
theorem c4_transform_hessian_request_fails_witness :
    c8Function.hessian_is_enabled = true ∧
    BindingsArityOk c8Function ∧
    hasTransformedBindingArgument c8Function = true ∧
    ((evaluateDense c8Function [3] [] (some [])).result
        = .error .changeOfVariablesNotSupportedForHessians ∧
      (evaluateSparse c8Function [3] [] (some [])).result
        = .error .changeOfVariablesNotSupportedForSparseHessian) := by
  have har : BindingsArityOk c8Function := by
    intro t ht
    simp [c8Function] at ht
    simp [ht, squareTerm]
  exact ⟨rfl, har, rfl,
    c4_transform_hessian_request_fails c8Function [3] [] [] [] rfl har rfl⟩

/-- C9: on a Function where a value-bearing sparse Hessian evaluation
succeeds (Hessian enabled, no transformed binding argument), the
structure-only `create_sparse_hessian` enumerates exactly the same coordinate
list (same multiset, in fact the same sequence) as the triplets the sparse
evaluation populates, every pattern value is `1.0`, and the pattern is
computed without evaluating any term: it is invariant under replacing every
term's evaluation functions. -/
theorem c9_sparsity_pattern_matches (f : SpiiFunction) (x g0 : List Rat)
    (s0 : List (Nat × Nat × Rat))
    (hen : f.hessian_is_enabled = true)
    (hnt : hasTransformedBindingArgument f = false) :
    (evaluateSparse f x g0 (some s0)).hessian = some (allTriplets f x) ∧
    tripCoords (create_sparse_hessian f) = tripCoords (allTriplets f x) ∧
    (∀ p ∈ create_sparse_hessian f, p.2.2 = (1 : Rat)) ∧
    (∀ e ge he, create_sparse_hessian (replaceEvalFunctions f e ge he)
      = create_sparse_hessian f) := by
  refine ⟨?_, ?_, ?_, ?_⟩
  · simp [evaluateSparse, hen, sparseTermErr, hnt]
  · simp only [tripCoords, create_sparse_hessian, allTriplets, termTriplets,
      var0Triplets, List.map_flatMap, List.map_map, Function.comp_def]
  · intro p hp
    simp only [create_sparse_hessian, List.mem_flatMap, List.mem_map] at hp
    obtain ⟨t, _, var0, _, var1, _, i, _, j, _, hpeq⟩ := hp
    rw [← hpeq]
  · intro e ge he
    simp only [create_sparse_hessian, replaceEvalFunctions]
    rw [List.flatMap_map]
    simp [lookupVarD, findVariable, bindingArg]

/-- Witness for C9 at the concrete two-variable scenario. -/
theorem c9_sparsity_pattern_matches_witness :
    c1Function.hessian_is_enabled = true ∧
    hasTransformedBindingArgument c1Function = false ∧
    ((evaluateSparse c1Function [3, 1, 2] [] (some [])).hessian
        = some (allTriplets c1Function [3, 1, 2]) ∧
      tripCoords (create_sparse_hessian c1Function)
        = tripCoords (allTriplets c1Function [3, 1, 2]) ∧
      (∀ p ∈ create_sparse_hessian c1Function, p.2.2 = (1 : Rat)) ∧
      (∀ e ge he, create_sparse_hessian (replaceEvalFunctions c1Function e ge he)
        = create_sparse_hessian c1Function)) :=
  ⟨rfl, rfl, c9_sparsity_pattern_matches c1Function [3, 1, 2] [] [] rfl rfl⟩

/-- A registered argument block whose user dimension matches what the term
declares for argument slot `var` (the success condition of the per-argument
check in `Function::add_term`). -/
def argOkAt (f : SpiiFunction) (term : Term) (id : Nat) (var : Nat) : Prop :=
  ∃ v, findVariable f id = some v ∧ v.user_dimension = term.variable_dimension var

/-- The argument check succeeds when every argument is registered with the
declared dimension. -/
theorem checkTermVariables_none (f : SpiiFunction) (term : Term) :
    ∀ (rest : List Nat) (start : Nat),
    (∀ k, k < rest.length → argOkAt f term (rest.getD k 0) (start + k)) →
    checkTermVariables f term rest start = none := by
  intro rest
  induction rest with
  | nil => intro start _; rfl
  | cons id rest ih =>
    intro start h
    obtain ⟨v, hf, hd⟩ := h 0 (by simp)
    simp only [List.getD_cons_zero, Nat.add_zero] at hf hd
    rw [checkTermVariables, hf]
    simp only [hd]
    rw [if_neg (by simp)]
    apply ih (start + 1)
    intro k hk
    have hshift := h (k + 1) (by simpa using Nat.succ_lt_succ hk)
    rw [show start + 1 + k = start + (k + 1) by omega]
    simpa using hshift

/-- The argument check reports an unknown variable at the first argument slot
whose block is unregistered, provided all earlier slots pass. -/
theorem checkTermVariables_unknown (f : SpiiFunction) (term : Term) :
    ∀ (rest : List Nat) (start k : Nat), k < rest.length →
    (∀ l, l < k → argOkAt f term (rest.getD l 0) (start + l)) →
    findVariable f (rest.getD k 0) = none →
    checkTermVariables f term rest start = some .unknownVariable := by
  intro rest
  induction rest with
  | nil => intro start k hk; simp at hk
  | cons id rest ih =>
    intro start k hk hpre hnone
    cases k with
    | zero =>
      simp only [List.getD_cons_zero] at hnone
      rw [checkTermVariables, hnone]
    | succ k1 =>
      obtain ⟨v, hf, hd⟩ := hpre 0 (by omega)
      simp only [List.getD_cons_zero, Nat.add_zero] at hf hd
      rw [checkTermVariables, hf]
      simp only [hd]
      rw [if_neg (by simp)]
      apply ih (start + 1) k1 (by simpa using hk)
      · intro l hl
        have hshift := hpre (l + 1) (by omega)
        rw [show start + 1 + l = start + (l + 1) by omega]
        simpa using hshift
      · simpa using hnone

/-- The argument check reports a dimension mismatch at the first argument slot
whose registered dimension disagrees with the term, provided all earlier slots
pass. -/
theorem checkTermVariables_mismatch (f : SpiiFunction) (term : Term) :
    ∀ (rest : List Nat) (start k : Nat), k < rest.length →
    (∀ l, l < k → argOkAt f term (rest.getD l 0) (start + l)) →
    (∃ v, findVariable f (rest.getD k 0) = some v ∧
      v.user_dimension ≠ term.variable_dimension (start + k)) →
    checkTermVariables f term rest start = some .variableDimensionDoesNotMatchTerm := by
  intro rest
  induction rest with
  | nil => intro start k hk; simp at hk
  | cons id rest ih =>
    intro start k hk hpre hbad
    obtain ⟨v, hfv, hdv⟩ := hbad
    cases k with
    | zero =>
      simp only [List.getD_cons_zero, Nat.add_zero] at hfv hdv
      rw [checkTermVariables, hfv]
      simp only [hdv]
      rw [if_pos (by simpa using hdv)]
    | succ k1 =>
      obtain ⟨w, hf, hd⟩ := hpre 0 (by omega)
      simp only [List.getD_cons_zero, Nat.add_zero] at hf hd
      rw [checkTermVariables, hf]
      simp only [hd]
      rw [if_neg (by simp)]
      apply ih (start + 1) k1 (by simpa using hk)
      · intro l hl
        have hshift := hpre (l + 1) (by omega)
        rw [show start + 1 + l = start + (l + 1) by omega]
        simpa using hshift
      · refine ⟨v, by simpa using hfv, ?_⟩
        rw [show start + 1 + k1 = start + (k1 + 1) by omega]
        exact hdv

/-- C7: `add_term` fails with the arity error when the argument count differs
from the term's arity; succeeds (appending exactly one binding) when every
argument is registered with the declared dimension; fails with the
unknown-variable error at the first unregistered argument and with the
dimension-mismatch error at the first mismatched argument; and every failure
leaves the Function — in particular the term graph — unchanged. -/
theorem c7_add_term_checks (f : SpiiFunction) (term : Term) (args : List Nat) :
    (term.number_of_variables ≠ args.length →
      add_term f term args = (f, some .incorrectNumberOfArguments)) ∧
    (term.number_of_variables = args.length →
      ((∀ k, k < args.length → argOkAt f term (args.getD k 0) k) →
        add_term f term args = ({ f with terms := f.terms ++ [⟨term, args⟩] }, none)) ∧
      (∀ k, k < args.length →
        (∀ l, l < k → argOkAt f term (args.getD l 0) l) →
        findVariable f (args.getD k 0) = none →
        add_term f term args = (f, some .unknownVariable)) ∧
      (∀ k, k < args.length →
        (∀ l, l < k → argOkAt f term (args.getD l 0) l) →
        (∃ v, findVariable f (args.getD k 0) = some v ∧
          v.user_dimension ≠ term.variable_dimension k) →
        add_term f term args = (f, some .variableDimensionDoesNotMatchTerm))) ∧
    (∀ e, (add_term f term args).2 = some e → (add_term f term args).1 = f) := by
  refine ⟨?_, ?_, ?_⟩
  · intro hne
    simp [add_term, hne]
  · intro hlen
    refine ⟨?_, ?_, ?_⟩
    · intro hall
      have hchk := checkTermVariables_none f term args 0 (by simpa using hall)
      simp [add_term, hlen, hchk]
    · intro k hk hpre hnone
      have hchk := checkTermVariables_unknown f term args 0 k hk
        (by simpa using hpre) hnone
      simp [add_term, hlen, hchk]
    · intro k hk hpre hbad
      have hchk := checkTermVariables_mismatch f term args 0 k hk
        (by simpa using hpre) (by simpa using hbad)
      simp [add_term, hlen, hchk]
  · intro e
    unfold add_term
    by_cases hne : term.number_of_variables ≠ args.length
    · simp [hne]
    · cases hchk : checkTermVariables f term args 0 <;> simp [hne, hchk]

/-- Witness for C7: adding the two-variable term with only one argument fails
with the arity error, and adding it with an unregistered second block fails
with the unknown-variable error, leaving the state unchanged. -/
theorem c7_add_term_checks_witness :
    add_term c1TwoVars twoVarTerm [0] = (c1TwoVars, some .incorrectNumberOfArguments) ∧
    add_term c1TwoVars twoVarTerm [0, 5] = (c1TwoVars, some .unknownVariable) := by
  constructor
  · exact (c7_add_term_checks c1TwoVars twoVarTerm [0]).1 (by simp [twoVarTerm])
  · refine ((c7_add_term_checks c1TwoVars twoVarTerm [0, 5]).2.1 (by simp [twoVarTerm])).2.1
      1 (by simp) ?_ rfl
    intro l hl
    have hl0 : l = 0 := by omega
    subst hl0
    exact ⟨⟨1, 1, 0, none⟩, rfl, rfl⟩

/-- Offsets in a `(solver_dimension, global_index)` list are consistent with a
running scalar counter starting at `acc`: each entry's offset is the counter
value at its registration, and the counter advances by the solver dimension. -/
def OffsetsOk : Nat → List (Nat × Nat) → Prop
  | _, [] => True
  | acc, p :: rest => p.2 = acc ∧ OffsetsOk (acc + p.1) rest

/-- The registry invariant maintained by `add_variable_internal`: distinct
keys, `number_of_scalars` equal to the sum of solver dimensions, and offsets
equal to the running counter in registration order. -/
def RegistryInv (f : SpiiFunction) : Prop :=
  (f.vars.map Prod.fst).Nodup ∧
  f.number_of_scalars = (f.vars.map (fun p => p.2.solver_dimension)).sum ∧
  OffsetsOk 0 (f.vars.map (fun p => (p.2.solver_dimension, p.2.global_index)))

/-- Splitting `OffsetsOk` across an append advances the counter by the sum of
the first part's dimensions. -/
theorem OffsetsOk_append (M : List (Nat × Nat)) :
    ∀ (L : List (Nat × Nat)) (acc : Nat),
    OffsetsOk acc (L ++ M) ↔
      OffsetsOk acc L ∧ OffsetsOk (acc + (L.map Prod.fst).sum) M := by
  intro L
  induction L with
  | nil => intro acc; simp [OffsetsOk]
  | cons p rest ih =>
    intro acc
    simp [OffsetsOk, ih (acc + p.1), and_assoc, Nat.add_assoc]

/-- Each entry of an `OffsetsOk` list carries the counter start plus the sum
of the dimensions registered before it. -/
theorem OffsetsOk_get : ∀ (L : List (Nat × Nat)) (acc : Nat), OffsetsOk acc L →
    ∀ k (hk : k < L.length),
      (L.get ⟨k, hk⟩).2 = acc + ((L.take k).map Prod.fst).sum := by
  intro L
  induction L with
  | nil => intro acc _ k hk; simp at hk
  | cons p rest ih =>
    intro acc hok k hk
    obtain ⟨hp, hrest⟩ := hok
    cases k with
    | zero => simpa using hp
    | succ k1 =>
      simp only [List.get_cons_succ, List.take_succ_cons, List.map_cons, List.sum_cons]
      rw [ih (acc + p.1) hrest k1 (by simpa using hk)]
      omega

/-- Prefix sums of a list of naturals are monotone. -/
theorem sum_take_mono (L : List Nat) :
    ∀ i j, i ≤ j → (L.take i).sum ≤ (L.take j).sum := by
  induction L with
  | nil => simp
  | cons x xs ih =>
    intro i j hij
    cases i with
    | zero => simp
    | succ i1 =>
      cases j with
      | zero => omega
      | succ j1 => simpa using ih i1 j1 (by omega)

/-- A failed lookup means no entry carries the key. -/
theorem findVariable_none_forall (f : SpiiFunction) (id : Nat)
    (h : findVariable f id = none) : ∀ p ∈ f.vars, p.1 ≠ id := by
  simp only [findVariable, Option.map_eq_none', List.find?_eq_none, beq_iff_eq] at h
  exact h

/-- With distinct keys, a successful lookup pins down the record of every
entry carrying the key. -/
theorem find_entry_unique :
    ∀ (vars : List (Nat × AddedVariable)) (id : Nat) (v : AddedVariable),
    (vars.map Prod.fst).Nodup →
    (vars.find? (fun p => p.1 == id)).map Prod.snd = some v →
    ∀ p ∈ vars, p.1 = id → p.2 = v := by
  intro vars
  induction vars with
  | nil => intro id v _ hf; simp at hf
  | cons q rest ih =>
    intro id v hnd hf p hp hpid
    rw [List.map_cons, List.nodup_cons] at hnd
    obtain ⟨hq1, hnd2⟩ := hnd
    by_cases hq : q.1 = id
    · have hv : q.2 = v := by
        rw [List.find?_cons_of_pos _ (by simpa using hq)] at hf
        simpa using hf
      rcases List.mem_cons.mp hp with hpq | hprest
      · rw [hpq]; exact hv
      · exfalso
        exact hq1 (by
          rw [hq, ← hpid]
          exact List.mem_map.mpr ⟨p, hprest, rfl⟩)
    · rw [List.find?_cons_of_neg _ (by simpa using hq)] at hf
      rcases List.mem_cons.mp hp with hpq | hprest
      · exact absurd (hpq ▸ hpid) hq
      · exact ih id v hnd2 hf p hprest hpid

/-- Replacing a uniquely-keyed record by one agreeing on a projection leaves
the projected list unchanged. -/
theorem replaceVariable_map_proj {α : Type} (g : AddedVariable → α)
    (vars : List (Nat × AddedVariable)) (id : Nat) (v v' : AddedVariable)
    (hg : g v' = g v)
    (huniq : ∀ p ∈ vars, p.1 = id → p.2 = v) :
    (replaceVariable vars id v').map (fun p => g p.2) = vars.map (fun p => g p.2) := by
  unfold replaceVariable
  rw [List.map_map]
  apply List.map_congr_left
  intro p hp
  by_cases hpid : p.1 = id
  · simp only [Function.comp_apply, if_pos hpid]
    rw [hg, huniq p hp hpid]
  · simp [Function.comp_apply, if_neg hpid]

/-- Replacement never changes the key list. -/
theorem replaceVariable_keys (vars : List (Nat × AddedVariable)) (id : Nat)
    (v' : AddedVariable) :
    (replaceVariable vars id v').map Prod.fst = vars.map Prod.fst := by
  unfold replaceVariable
  rw [List.map_map]
  apply List.map_congr_left
  intro p _
  by_cases hpid : p.1 = id <;> simp [hpid]

/-- A successful registration preserves the registry invariant: replacing a
transform touches neither dimensions nor offsets, and a fresh record receives
`global_index = number_of_scalars` with the counter advanced by its solver
dimension. -/
theorem add_variable_preserves_inv (f f' : SpiiFunction) (id d : Nat)
    (cov : Option ChangeOfVariables)
    (h : add_variable_internal f id d cov = .ok f')
    (hinv : RegistryInv f) : RegistryInv f' := by
  obtain ⟨hnd, hsum, hoff⟩ := hinv
  unfold add_variable_internal at h
  cases hfind : findVariable f id with
  | some v =>
    rw [hfind] at h
    simp only at h
    by_cases hdim : v.user_dimension ≠ d
    · simp [hdim] at h
    · rw [if_neg hdim] at h
      have huniq : ∀ p ∈ f.vars, p.1 = id → p.2 = v :=
        find_entry_unique f.vars id v hnd hfind
      have hrepl : ∀ v1 : AddedVariable,
          v1.user_dimension = v.user_dimension →
          v1.solver_dimension = v.solver_dimension →
          v1.global_index = v.global_index →
          RegistryInv { f with vars := replaceVariable f.vars id v1 } := by
        intro v1 h1 h2 h3
        refine ⟨?_, ?_, ?_⟩
        · rw [replaceVariable_keys]; exact hnd
        · rw [replaceVariable_map_proj (fun w => w.solver_dimension)
            f.vars id v v1 h2 huniq]
          exact hsum
        · rw [replaceVariable_map_proj (fun w => (w.solver_dimension, w.global_index))
            f.vars id v v1 (by simp [h2, h3]) huniq]
          exact hoff
      cases cov with
      | some c =>
        simp only at h
        by_cases hx : v.user_dimension ≠ c.x_dimension
        · simp [hx] at h
        · rw [if_neg hx] at h
          by_cases ht : v.solver_dimension ≠ c.t_dimension
          · simp [ht] at h
          · rw [if_neg ht] at h
            cases h
            exact hrepl _ rfl rfl rfl
      | none =>
        cases h
        exact hrepl _ rfl rfl rfl
  | none =>
    rw [hfind] at h
    simp only at h
    have hkey : ∀ p ∈ f.vars, p.1 ≠ id := findVariable_none_forall f id hfind
    have happ : ∀ (ud sd : Nat) (c1 : Option ChangeOfVariables),
        RegistryInv { f with
          vars := f.vars ++ [(id, ⟨ud, sd, f.number_of_scalars, c1⟩)],
          number_of_scalars := f.number_of_scalars + sd } := by
      intro ud sd c1
      refine ⟨?_, ?_, ?_⟩
      · simp only [List.map_append, List.map_cons, List.map_nil]
        rw [List.nodup_append]
        refine ⟨hnd, by simp, ?_⟩
        intro a ha hb
        simp only [List.mem_singleton] at hb
        obtain ⟨p, hp, hpa⟩ := List.mem_map.mp ha
        exact hkey p hp (hpa.trans hb)
      · simp only [List.map_append, List.map_cons, List.map_nil, List.sum_append,
          List.sum_cons, List.sum_nil]
        rw [hsum]
        omega
      · simp only [List.map_append, List.map_cons, List.map_nil]
        rw [OffsetsOk_append]
        refine ⟨hoff, ?_, trivial⟩
        rw [hsum]
        simp [List.map_map, Function.comp_def]
    cases cov with
    | some c =>
      simp only at h
      by_cases hd : d ≠ c.x_dimension
      · simp [hd] at h
      · rw [if_neg hd] at h
        cases h
        exact happ _ _ _
    | none =>
      cases h
      exact happ _ _ _

/-- The registry invariant holds along any successful registration sequence. -/
theorem applyRegistrations_inv :
    ∀ (regs : List Registration) (f0 f : SpiiFunction),
    applyRegistrations f0 regs = .ok f → RegistryInv f0 → RegistryInv f := by
  intro regs
  induction regs with
  | nil =>
    intro f0 f h h0
    unfold applyRegistrations at h
    cases h
    exact h0
  | cons r rest ih =>
    intro f0 f h h0
    unfold applyRegistrations at h
    cases hstep : add_variable_internal f0 r.block_id r.dimension r.change_of_variables with
    | ok f1 =>
      rw [hstep] at h
      exact ih f1 f h (add_variable_preserves_inv f0 f1 _ _ _ hstep h0)
    | error e =>
      rw [hstep] at h
      cases h

/-- Every variable's solver dimension equals its user dimension. -/
def SolverEqUser (f : SpiiFunction) : Prop :=
  ∀ p ∈ f.vars, p.2.solver_dimension = p.2.user_dimension

/-- A registration without a change of variables preserves the coincidence of
solver and user dimensions. -/
theorem add_variable_none_solverEqUser (f f' : SpiiFunction) (id d : Nat)
    (h : add_variable_internal f id d none = .ok f')
    (h0 : SolverEqUser f) : SolverEqUser f' := by
  unfold add_variable_internal at h
  cases hfind : findVariable f id with
  | some v =>
    rw [hfind] at h
    simp only at h
    by_cases hdim : v.user_dimension ≠ d
    · simp [hdim] at h
    · rw [if_neg hdim] at h
      cases h
      intro p hp
      unfold replaceVariable at hp
      obtain ⟨q, hq, hqp⟩ := List.mem_map.mp hp
      have hv : ∃ q1 ∈ f.vars, q1.2 = v := by
        cases hf : f.vars.find? (fun p => p.1 == id) with
        | none => rw [findVariable, hf] at hfind; cases hfind
        | some q1 =>
          refine ⟨q1, List.mem_of_find?_eq_some hf, ?_⟩
          rw [findVariable, hf] at hfind
          simpa using hfind
      obtain ⟨q1, hq1, hq1v⟩ := hv
      by_cases hqid : q.1 = id
      · rw [if_pos hqid] at hqp
        rw [← hqp]
        have := h0 q1 hq1
        rw [hq1v] at this
        simpa using this
      · rw [if_neg hqid] at hqp
        rw [← hqp]
        exact h0 q hq
  | none =>
    rw [hfind] at h
    simp only at h
    cases h
    intro p hp
    rcases List.mem_append.mp hp with hold | hnew
    · exact h0 p hold
    · simp only [List.mem_singleton] at hnew
      rw [hnew]
  
/-- Along a registration sequence that never installs a change of variables,
solver and user dimensions coincide for every registered variable. -/
theorem applyRegistrations_solverEqUser :
    ∀ (regs : List Registration) (f0 f : SpiiFunction),
    applyRegistrations f0 regs = .ok f →
    (∀ r ∈ regs, r.change_of_variables = none) →
    SolverEqUser f0 → SolverEqUser f := by
  intro regs
  induction regs with
  | nil =>
    intro f0 f h _ h0
    unfold applyRegistrations at h
    cases h
    exact h0
  | cons r rest ih =>
    intro f0 f h hnone h0
    unfold applyRegistrations at h
    cases hstep : add_variable_internal f0 r.block_id r.dimension r.change_of_variables with
    | ok f1 =>
      rw [hstep] at h
      have hrnone : r.change_of_variables = none := hnone r (by simp)
      rw [hrnone] at hstep
      exact ih f1 f h (fun r1 hr1 => hnone r1 (by simp [hr1]))
        (add_variable_none_solverEqUser f0 f1 _ _ hstep h0)
    | error e =>
      rw [hstep] at h
      cases h

/-- C5: along any successful registration sequence starting from a fresh
Function, `get_number_of_scalars` equals the sum of the solver dimensions of
the registered variables; when no registration installs a change of
variables it also equals the sum of the user dimensions; each variable's
`global_index` is the sum of the solver dimensions registered before it —
i.e. the value of the scalar counter at its first registration — so offsets
are monotone in registration order. -/
theorem c5_scalar_count_and_offsets (regs : List Registration) (f : SpiiFunction)
    (h : applyRegistrations emptyFunction regs = .ok f) :
    f.number_of_scalars = (f.vars.map (fun p => p.2.solver_dimension)).sum ∧
    ((∀ r ∈ regs, r.change_of_variables = none) →
      f.number_of_scalars = (f.vars.map (fun p => p.2.user_dimension)).sum) ∧
    (∀ k (hk : k < f.vars.length),
      (f.vars.get ⟨k, hk⟩).2.global_index =
        ((f.vars.take k).map (fun p => p.2.solver_dimension)).sum) ∧
    (∀ i j (hi : i < f.vars.length) (hj : j < f.vars.length), i ≤ j →
      (f.vars.get ⟨i, hi⟩).2.global_index ≤ (f.vars.get ⟨j, hj⟩).2.global_index) := by
  have hinv : RegistryInv f :=
    applyRegistrations_inv regs emptyFunction f h
      ⟨by simp [emptyFunction], rfl, trivial⟩
  obtain ⟨hnd, hsum, hoff⟩ := hinv
  have hget : ∀ k (hk : k < f.vars.length),
      (f.vars.get ⟨k, hk⟩).2.global_index =
        ((f.vars.take k).map (fun p => p.2.solver_dimension)).sum := by
    intro k hk
    have hk1 : k < (f.vars.map (fun p => (p.2.solver_dimension, p.2.global_index))).length := by
      simpa using hk
    have := OffsetsOk_get _ 0 hoff k hk1
    rw [List.get_map] at this
    simp only [Nat.zero_add] at this
    rw [this, ← List.map_take, List.map_map]
    rfl
  refine ⟨hsum, ?_, hget, ?_⟩
  · intro hnone
    have hsu : SolverEqUser f :=
      applyRegistrations_solverEqUser regs emptyFunction f h hnone
        (by intro p hp; simp [emptyFunction] at hp)
    rw [hsum]
    congr 1
    exact List.map_congr_left (fun p hp => hsu p hp)
  · intro i j hi hj hij
    rw [hget i hi, hget j hj, List.map_take, List.map_take]
    exact sum_take_mono (f.vars.map (fun p => p.2.solver_dimension)) i j hij

/-- Witness for C5 on the two-registration sequence of the concrete
scenario. -/
theorem c5_scalar_count_and_offsets_witness :
    applyRegistrations emptyFunction [⟨0, 1, none⟩, ⟨1, 2, none⟩] = .ok c1TwoVars ∧
    (c1TwoVars.number_of_scalars
        = (c1TwoVars.vars.map (fun p => p.2.solver_dimension)).sum ∧
      ((∀ r ∈ ([⟨0, 1, none⟩, ⟨1, 2, none⟩] : List Registration),
          r.change_of_variables = none) →
        c1TwoVars.number_of_scalars
          = (c1TwoVars.vars.map (fun p => p.2.user_dimension)).sum) ∧
      (∀ k (hk : k < c1TwoVars.vars.length),
        (c1TwoVars.vars.get ⟨k, hk⟩).2.global_index =
          ((c1TwoVars.vars.take k).map (fun p => p.2.solver_dimension)).sum) ∧
      (∀ i j (hi : i < c1TwoVars.vars.length) (hj : j < c1TwoVars.vars.length),
        i ≤ j →
        (c1TwoVars.vars.get ⟨i, hi⟩).2.global_index
          ≤ (c1TwoVars.vars.get ⟨j, hj⟩).2.global_index)) :=
  ⟨rfl, c5_scalar_count_and_offsets [⟨0, 1, none⟩, ⟨1, 2, none⟩] c1TwoVars rfl⟩

/-- After replacing the record under `id`, looking `id` up yields the
replacement exactly when the original lookup succeeded. -/
theorem find_replace (vars : List (Nat × AddedVariable)) (id : Nat)
    (v' : AddedVariable) :
    ((replaceVariable vars id v').find? (fun p => p.1 == id)).map Prod.snd
      = ((vars.find? (fun p => p.1 == id)).map Prod.snd).map (fun _ => v') := by
  induction vars with
  | nil => rfl
  | cons q rest ih =>
    by_cases hq : q.1 = id
    · simp only [replaceVariable, List.map_cons, if_pos hq]
      rw [List.find?_cons_of_pos _ (by simpa using hq),
        List.find?_cons_of_pos _ (by simpa using hq)]
      rfl
    · simp only [replaceVariable, List.map_cons, if_neg hq]
      rw [List.find?_cons_of_neg _ (by simpa using hq),
        List.find?_cons_of_neg _ (by simpa using hq)]
      exact ih

/-- C6: re-registering an already-registered block with its recorded user
dimension and no transform change succeeds and leaves the block's
`global_offset`, the total scalar count, and the variable count unchanged —
indeed the block's whole record is unchanged. -/
theorem c6_reregistration_noop (f : SpiiFunction) (id d : Nat)
    (v : AddedVariable)
    (hfind : findVariable f id = some v)
    (hdim : v.user_dimension = d)
    (hnt : v.change_of_variables = none) :
    ∃ f', add_variable_internal f id d none = .ok f' ∧
      f'.number_of_scalars = f.number_of_scalars ∧
      f'.vars.length = f.vars.length ∧
      findVariable f' id = some v := by
  refine ⟨{ f with vars :=
    replaceVariable f.vars id { v with change_of_variables := none } }, ?_, rfl,
    by simp [replaceVariable], ?_⟩
  · unfold add_variable_internal
    rw [hfind]
    simp only
    rw [if_neg (by simp [hdim])]
  · show findVariable _ id = some v
    unfold findVariable
    rw [find_replace]
    have hfv : (f.vars.find? (fun p => p.1 == id)).map Prod.snd = some v := hfind
    have hv : ({ v with change_of_variables := none } : AddedVariable) = v := by
      cases v
      simp_all
    rw [hfv, hv]
    rfl

/-- Witness for C6: re-registering block 0 of the concrete scenario with its
dimension 1 is a no-op on offset, scalar count and variable count. -/
theorem c6_reregistration_noop_witness :
    ∃ f', add_variable_internal c1TwoVars 0 1 none = .ok f' ∧
      f'.number_of_scalars = c1TwoVars.number_of_scalars ∧
      f'.vars.length = c1TwoVars.vars.length ∧
      findVariable f' 0 = some ⟨1, 1, 0, none⟩ :=
  c6_reregistration_noop c1TwoVars 0 1 ⟨1, 1, 0, none⟩ rfl rfl rfl
